import Mathlib

/-!
Verification of the quote-store application in this repository against its
natural-language specification.

The repository contains near-duplicate versions of the same browser page.
The two versions the claims reference are embedded here:

* namespace `ScriptJs`  — the file `src/dom-manipulation/script.js`
  (its first document; the file is a concatenation of two versions, the
  second being an unrelated simpler page with no storage).
* namespace `Part002`   — the file `src/unnamed/part_002`.

Modelling conventions, used throughout:

* A stored quote record is `Quote` (string fields `text` and `category`).
* Browser storage is explicit state: `StoreState` carries the in-memory
  `quotes` array and the persisted copy `storedQuotes` (the value under
  the localStorage key "quotes").  `localStorage.setItem("quotes", ...)`
  is modelled by updating `storedQuotes`.
* JavaScript string helpers `trim()` and `toLowerCase()` are modelled
  character-wise (`jsTrim`, `jsToLower`) so that concrete inputs evaluate
  inside the kernel.
* JSON documents handled by import and export are modelled by the
  inductive `Json` (null, strings, arrays, objects — the fragment the
  quote format uses).  `JSON.parse` failure is modelled by passing
  `Option Json` with `none` for an unparseable document.
* `Math.random()` is modelled by an explicit rational parameter `rand`
  with `0 ≤ rand < 1`; `Math.floor` is `Rat.floor`.
* DOM side effects (innerHTML, alerts, notifications) are outside the
  model; functions return the data the DOM would receive, plus a `Bool`
  success flag where the source branches between a success path and an
  error path.
-/

namespace QuoteApp

/-- A quote record as stored by every version of the page:
an object with string fields `text` and `category`. -/
structure Quote where
  text : String
  category : String
deriving DecidableEq, Repr

/-- Model of JavaScript `String.prototype.toLowerCase` (character-wise
lowering, sufficient for the ASCII categories this page handles). -/
def jsToLower (s : String) : String :=
  ⟨s.data.map Char.toLower⟩

/-- Model of JavaScript `String.prototype.trim`: strip whitespace from
both ends of the string. -/
def jsTrim (s : String) : String :=
  ⟨((s.data.dropWhile Char.isWhitespace).reverse.dropWhile Char.isWhitespace).reverse⟩

/-- JSON values, restricted to the fragment the quote-store format uses:
null, strings, arrays and objects. -/
inductive Json where
  | null : Json
  | str (s : String) : Json
  | arr (elems : List Json) : Json
  | obj (fields : List (String × Json)) : Json

/-- First-match lookup among the fields of a JSON object. -/
def lookupField : List (String × Json) → String → Option Json
  | [], _ => none
  | (k, v) :: rest, key => if k = key then some v else lookupField rest key

/-- JavaScript property access `j.key`: a field lookup on objects,
`undefined` (here `none`) on every other value. -/
def Json.getField : Json → String → Option Json
  | Json.obj fields, key => lookupField fields key
  | _, _ => none

/-- JavaScript truthiness of a possibly-absent JSON value: `undefined`,
`null` and the empty string are falsy, everything else in our fragment
is truthy. -/
def jsTruthy : Option Json → Bool
  | none => false
  | some Json.null => false
  | some (Json.str s) => !(s == "")
  | some (Json.arr _) => true
  | some (Json.obj _) => true

/-- JavaScript strict equality `s === v` between a known string and a
possibly-absent JSON value: true exactly when the value is the same
string. -/
def jsStrEq (s : String) : Option Json → Bool
  | some (Json.str t) => s == t
  | _ => false

/-- Serialization of one quote record, as produced by
`JSON.stringify` on a `{text, category}` object. -/
def quoteToJson (q : Quote) : Json :=
  Json.obj [("text", Json.str q.text), ("category", Json.str q.category)]

/-- The `(text, category)` record carried by a stored JSON element, when
both fields are present strings. -/
def jsonToQuote (j : Json) : Option Quote :=
  match j.getField "text", j.getField "category" with
  | some (Json.str t), some (Json.str c) => some ⟨t, c⟩
  | _, _ => none

/-- The page state relevant to the claims: the in-memory `quotes` array
and the persisted copy under the localStorage key "quotes". -/
structure StoreState (α : Type) where
  quotes : List α
  storedQuotes : List α
deriving DecidableEq

/-- JavaScript `localStorage.getItem("selectedCategory") || "all"`:
a missing value and the empty string both fall back to "all". -/
def jsOrAll : Option String → String
  | none => "all"
  | some s => if s = "" then "all" else s

/-- A record of the remote endpoint response; the sync code of both
versions reads only its `title` field. -/
structure ServerPost where
  title : String

namespace ScriptJs

/-- `syncWithServer`, lines 55-58 of `src/dom-manipulation/script.js`:
`serverQuotes.slice(0, 5).map(post => ({text: post.title, category: "server"}))`. -/
def formattedQuotes (posts : List ServerPost) : List Quote :=
  (posts.take 5).map fun post => ⟨post.title, "server"⟩

/-- The merge loop of `syncWithServer`, lines 63-70 of
`src/dom-manipulation/script.js`: for each candidate, look for an
existing quote with the same `text` (`localQuotes.some(localQuote =>
localQuote.text === serverQuote.text)`); push the candidate when none
is found.  Returns the merged array together with the number of pushes
(the `updated` flag of the source is `0 < count`). -/
def mergeCount : List Quote → List Quote → List Quote × Nat
  | store, [] => (store, 0)
  | store, c :: rest =>
    if store.any fun q => q.text == c.text then
      mergeCount store rest
    else
      let r := mergeCount (store ++ [c]) rest
      (r.1, r.2 + 1)

/-- The merged store produced by the `syncWithServer` merge loop. -/
def mergeQuotes (store cands : List Quote) : List Quote :=
  (mergeCount store cands).1

/-- `syncWithServer`, lines 60-78 of `src/dom-manipulation/script.js`:
read `localQuotes` from localStorage, merge the formatted server quotes
into it by text, and only when something was pushed assign the result to
the global `quotes` and write it back to localStorage.  The returned
flag is the `updated` variable of the source. -/
def syncWithServer (st : StoreState Quote) (posts : List ServerPost) :
    StoreState Quote × Bool :=
  if 0 < (mergeCount st.storedQuotes (formattedQuotes posts)).2 then
    (⟨(mergeCount st.storedQuotes (formattedQuotes posts)).1,
      (mergeCount st.storedQuotes (formattedQuotes posts)).1⟩, true)
  else (st, false)

/-- `addQuote`, lines 125-142 of `src/dom-manipulation/script.js`: trim
both inputs, lowercase the category, alert and return unchanged when
either is empty, otherwise push the new quote and save (`saveQuotes`,
lines 25-27, writes the array to localStorage).  The flag distinguishes
the success alert from the validation alert. -/
def addQuote (st : StoreState Quote) (textIn catIn : String) :
    StoreState Quote × Bool :=
  if jsTrim textIn = "" ∨ jsToLower (jsTrim catIn) = "" then (st, false)
  else
    (⟨st.quotes ++ [⟨jsTrim textIn, jsToLower (jsTrim catIn)⟩],
      st.quotes ++ [⟨jsTrim textIn, jsToLower (jsTrim catIn)⟩]⟩, true)

/-- The filtered view of `filterQuotes`, lines 88-103 of
`src/dom-manipulation/script.js`: the full array for "all", otherwise
the quotes whose category equals the selection. -/
def filterQuotes (store : List Quote) (selected : String) : List Quote :=
  if selected = "all" then store else store.filter fun q => q.category == selected

/-- What `displayRandomQuote` leaves on the display: either the
no-quotes message or one selected quote (`none` would be an
out-of-bounds array access). -/
inductive DisplayOutcome where
  | noQuotes : DisplayOutcome
  | shown (q : Option Quote) : DisplayOutcome
deriving DecidableEq

/-- `displayRandomQuote`, lines 106-122 of
`src/dom-manipulation/script.js`: filter by the selected category, show
the no-quotes message when the view is empty, otherwise index it at
`Math.floor(Math.random() * filteredQuotes.length)` with the random
draw `rand` passed explicitly. -/
def displayRandomQuote (store : List Quote) (selectedCategory : String)
    (rand : ℚ) : DisplayOutcome :=
  let filteredQuotes :=
    if selectedCategory = "all" then store
    else store.filter fun q => q.category == selectedCategory
  if filteredQuotes.length = 0 then DisplayOutcome.noQuotes
  else
    DisplayOutcome.shown
      (filteredQuotes[(Rat.floor (rand * (filteredQuotes.length : ℚ))).toNat]?)

/-- `exportQuotes`, lines 155-165 of `src/dom-manipulation/script.js`:
the downloaded file holds `JSON.stringify(quotes, null, 2)`, i.e. the
JSON array of the stored elements (pretty-printing is immaterial at the
value level). -/
def exportQuotes (store : List Json) : Json :=
  Json.arr store

/-- `importFromJsonFile`, lines 168-185 of
`src/dom-manipulation/script.js`: parse the file (a parse failure is
`none`), throw unless the result is an array, then
`quotes.push(...importedQuotes)` — every element is appended with no
field validation and no duplicate check — and save.  The catch branch
alerts and changes nothing; the flag records which alert fired. -/
def importFromJsonFile (st : StoreState Json) (doc : Option Json) :
    StoreState Json × Bool :=
  match doc with
  | some (Json.arr es) => (⟨st.quotes ++ es, st.quotes ++ es⟩, true)
  | _ => (st, false)

/-- `populateCategories`, line 31 of `src/dom-manipulation/script.js`:
`[...new Set(quotes.map(q => q.category))]` — distinct categories in
first-occurrence order, no case normalization. -/
def categoriesOf (store : List Quote) : List String :=
  (store.map Quote.category).eraseDups

/-- `restoreFilter`, lines 188-192 of `src/dom-manipulation/script.js`:
read the saved selection (missing value defaults to "all") and assign it
to `categoryFilter.value` with no existence check.  Per the HTML select
semantics, assigning a value that matches no option (the options are
"all" followed by the categories) leaves no option selected and the
select value becomes the empty string. -/
def restoreFilter (store : List Quote) (saved : Option String) : String :=
  let savedCategory := jsOrAll saved
  if savedCategory ∈ ("all" :: categoriesOf store) then savedCategory else ""

end ScriptJs

namespace Part002

/-- `fetchQuotesFromServer`, lines 79-84 of `src/unnamed/part_002`:
`serverPosts.slice(0, 5).map(post => ({text: post.title, category: "server"}))`. -/
def fetchedQuotes (posts : List ServerPost) : List Quote :=
  (posts.take 5).map fun post => ⟨post.title, "server"⟩

/-- The merge loop of `syncWithServer`, lines 140-148 of
`src/unnamed/part_002`: skip a candidate whose `text` already occurs
(`localQuotes.some(localQuote => localQuote.text === serverQuote.text)`),
and push only candidates with truthy (nonempty) `text` and `category`. -/
def mergeServerQuotes : List Quote → List Quote → List Quote
  | store, [] => store
  | store, c :: rest =>
    if store.any fun q => q.text == c.text then
      mergeServerQuotes store rest
    else if c.text ≠ "" ∧ c.category ≠ "" then
      mergeServerQuotes (store ++ [c]) rest
    else
      mergeServerQuotes store rest

/-- The element loop of `importFromJsonFile`, lines 317-324 of
`src/unnamed/part_002`: for each element, look for an existing quote
whose `text` and `category` strictly equal the element fields; when none
is found and both fields are truthy, push `{text: impQuote.text,
category: impQuote.category.toLowerCase()}` and count it.  The loop
state is the growing global `quotes` array and `addedCount`.  A truthy
field that is not a string is outside the modelled quote format and is
mapped to `none` (on such input the source would store a non-string
text, or throw from `toLowerCase` on a non-string category, landing in
the catch branch). -/
def importElems : List Quote → Nat → List Json → Option (List Quote × Nat)
  | store, acc, [] => some (store, acc)
  | store, acc, e :: rest =>
    let textv := e.getField "text"
    let catv := e.getField "category"
    if store.any fun q => jsStrEq q.text textv && jsStrEq q.category catv then
      importElems store acc rest
    else if jsTruthy textv && jsTruthy catv then
      match textv, catv with
      | some (Json.str t), some (Json.str c) =>
          importElems (store ++ [⟨t, jsToLower c⟩]) (acc + 1) rest
      | _, _ => none
    else
      importElems store acc rest

/-- `importFromJsonFile`, lines 302-342 of `src/unnamed/part_002`:
parse the file (`none` for a parse failure), throw unless the result is
an array (the catch branch reports the error), otherwise run the element
loop and report the pair of the new store and `addedCount`. -/
def importFromJsonFile (store : List Quote) (doc : Option Json) :
    Option (List Quote × Nat) :=
  match doc with
  | some (Json.arr es) => importElems store 0 es
  | _ => none

/-- Insertion step of the category sort. -/
def insertSorted (s : String) : List String → List String
  | [] => [s]
  | t :: rest => if s ≤ t then s :: t :: rest else t :: insertSorted s rest

/-- Insertion sort on strings, modelling `Array.prototype.sort` with the
default lexicographic comparison. -/
def sortStrings : List String → List String
  | [] => []
  | s :: rest => insertSorted s (sortStrings rest)

/-- `populateCategories`, lines 38-42 of `src/unnamed/part_002`:
`[...new Set(quotes.map(q => q.category.toLowerCase()))]` sorted
alphabetically. -/
def categoriesOf (store : List Quote) : List String :=
  sortStrings ((store.map fun q => jsToLower q.category).eraseDups)

/-- `restoreFilter`, lines 347-354 of `src/unnamed/part_002`: read the
saved selection (missing value defaults to "all") and assign it to the
filter dropdown only when it matches an existing option.  The options
were just rebuilt by `populateCategories` as "all" followed by the
categories, with "all" selected, so a saved value matching no option
leaves the dropdown at "all". -/
def restoreFilter (store : List Quote) (saved : Option String) : String :=
  let savedCategory := jsOrAll saved
  if savedCategory ∈ ("all" :: categoriesOf store) then savedCategory else "all"

end Part002

/-! ### Structural lemmas about the two merge loops -/

theorem mergeQuotes_nil (store : List Quote) : ScriptJs.mergeQuotes store [] = store := rfl

theorem mergeQuotes_cons (store : List Quote) (c : Quote) (rest : List Quote) :
    ScriptJs.mergeQuotes store (c :: rest) =
      if store.any (fun q => q.text == c.text) then ScriptJs.mergeQuotes store rest
      else ScriptJs.mergeQuotes (store ++ [c]) rest := by
  simp only [ScriptJs.mergeQuotes, ScriptJs.mergeCount]
  split <;> rfl

/-- The merge loop of `script.js` only ever appends: its result is the
starting store followed by a sublist of the candidates. -/
theorem mergeQuotes_suffix (cands store : List Quote) :
    ∃ added, ScriptJs.mergeQuotes store cands = store ++ added ∧ added.Sublist cands := by
  induction cands generalizing store with
  | nil => exact ⟨[], by simp [mergeQuotes_nil], List.Sublist.refl _⟩
  | cons c rest ih =>
    rw [mergeQuotes_cons]
    split
    · obtain ⟨added, h1, h2⟩ := ih store
      exact ⟨added, h1, List.Sublist.cons c h2⟩
    · obtain ⟨added, h1, h2⟩ := ih (store ++ [c])
      refine ⟨c :: added, ?_, List.Sublist.cons₂ c h2⟩
      rw [h1, List.append_assoc, List.singleton_append]

theorem mergeQuotes_mono (store cands : List Quote) (q : Quote) (h : q ∈ store) :
    q ∈ ScriptJs.mergeQuotes store cands := by
  obtain ⟨added, he, _⟩ := mergeQuotes_suffix cands store
  rw [he]
  exact List.mem_append_left _ h

/-- After the `script.js` merge loop runs, every candidate text occurs in
the resulting store (it either existed or the candidate was pushed). -/
theorem mergeQuotes_hasText (cands store : List Quote) (c : Quote) (hc : c ∈ cands) :
    ∃ q ∈ ScriptJs.mergeQuotes store cands, q.text = c.text := by
  induction cands generalizing store with
  | nil => cases hc
  | cons d rest ih =>
    rw [mergeQuotes_cons]
    rcases List.mem_cons.mp hc with hcd | hmem
    · subst hcd
      split
      · rename_i hany
        rw [List.any_eq_true] at hany
        obtain ⟨q, hq, hqt⟩ := hany
        exact ⟨q, mergeQuotes_mono store rest q hq, by simpa using hqt⟩
      · exact ⟨c, mergeQuotes_mono _ rest c
          (List.mem_append_right _ (List.mem_singleton.mpr rfl)), rfl⟩
    · split
      · exact ih store hmem
      · exact ih (store ++ [d]) hmem

/-- The `script.js` merge loop is the identity when every candidate text
is already present. -/
theorem mergeQuotes_eq_self (cands store : List Quote)
    (h : ∀ c ∈ cands, ∃ q ∈ store, q.text = c.text) :
    ScriptJs.mergeQuotes store cands = store := by
  induction cands with
  | nil => exact mergeQuotes_nil store
  | cons c rest ih =>
    rw [mergeQuotes_cons]
    have hany : store.any (fun q => q.text == c.text) = true := by
      rw [List.any_eq_true]
      obtain ⟨q, hq, hqt⟩ := h c (List.mem_cons_self c rest)
      exact ⟨q, hq, by simpa using hqt⟩
    rw [if_pos hany]
    exact ih fun d hd => h d (List.mem_cons_of_mem c hd)

theorem mergeQuotes_append (xs ys store : List Quote) :
    ScriptJs.mergeQuotes store (xs ++ ys) =
      ScriptJs.mergeQuotes (ScriptJs.mergeQuotes store xs) ys := by
  induction xs generalizing store with
  | nil => rw [List.nil_append, mergeQuotes_nil]
  | cons c rest ih =>
    rw [List.cons_append, mergeQuotes_cons, mergeQuotes_cons]
    split
    · exact ih store
    · exact ih (store ++ [c])

theorem mergeServer_nil (store : List Quote) : Part002.mergeServerQuotes store [] = store := rfl

theorem mergeServer_cons (store : List Quote) (c : Quote) (rest : List Quote) :
    Part002.mergeServerQuotes store (c :: rest) =
      if store.any (fun q => q.text == c.text) then Part002.mergeServerQuotes store rest
      else if c.text ≠ "" ∧ c.category ≠ "" then Part002.mergeServerQuotes (store ++ [c]) rest
      else Part002.mergeServerQuotes store rest := rfl

/-- The merge loop of `part_002` only ever appends: its result is the
starting store followed by a sublist of the candidates. -/
theorem mergeServer_suffix (cands store : List Quote) :
    ∃ added, Part002.mergeServerQuotes store cands = store ++ added ∧ added.Sublist cands := by
  induction cands generalizing store with
  | nil => exact ⟨[], by simp [mergeServer_nil], List.Sublist.refl _⟩
  | cons c rest ih =>
    rw [mergeServer_cons]
    split
    · obtain ⟨added, h1, h2⟩ := ih store
      exact ⟨added, h1, List.Sublist.cons c h2⟩
    · split
      · obtain ⟨added, h1, h2⟩ := ih (store ++ [c])
        refine ⟨c :: added, ?_, List.Sublist.cons₂ c h2⟩
        rw [h1, List.append_assoc, List.singleton_append]
      · obtain ⟨added, h1, h2⟩ := ih store
        exact ⟨added, h1, List.Sublist.cons c h2⟩

theorem mergeServer_mono (store cands : List Quote) (q : Quote) (h : q ∈ store) :
    q ∈ Part002.mergeServerQuotes store cands := by
  obtain ⟨added, he, _⟩ := mergeServer_suffix cands store
  rw [he]
  exact List.mem_append_left _ h

/-- After the `part_002` merge loop runs, every candidate is either
represented by its text in the result or was invalid (empty text or
category). -/
theorem mergeServer_hasText (cands store : List Quote) (c : Quote) (hc : c ∈ cands) :
    (∃ q ∈ Part002.mergeServerQuotes store cands, q.text = c.text)
      ∨ c.text = "" ∨ c.category = "" := by
  induction cands generalizing store with
  | nil => cases hc
  | cons d rest ih =>
    rw [mergeServer_cons]
    rcases List.mem_cons.mp hc with hcd | hmem
    · subst hcd
      split
      · rename_i hany
        rw [List.any_eq_true] at hany
        obtain ⟨q, hq, hqt⟩ := hany
        exact Or.inl ⟨q, mergeServer_mono store rest q hq, by simpa using hqt⟩
      · split
        · exact Or.inl ⟨c, mergeServer_mono _ rest c
            (List.mem_append_right _ (List.mem_singleton.mpr rfl)), rfl⟩
        · rename_i hvalid
          rcases not_and_or.mp hvalid with h | h
          · exact Or.inr (Or.inl (not_not.mp h))
          · exact Or.inr (Or.inr (not_not.mp h))
    · split
      · exact ih store hmem
      · split
        · exact ih (store ++ [d]) hmem
        · exact ih store hmem

/-- The `part_002` merge loop is the identity when every candidate text
is already present or the candidate is invalid. -/
theorem mergeServer_eq_self (cands store : List Quote)
    (h : ∀ c ∈ cands, (∃ q ∈ store, q.text = c.text) ∨ c.text = "" ∨ c.category = "") :
    Part002.mergeServerQuotes store cands = store := by
  induction cands with
  | nil => exact mergeServer_nil store
  | cons c rest ih =>
    rw [mergeServer_cons]
    have hrest : Part002.mergeServerQuotes store rest = store :=
      ih fun d hd => h d (List.mem_cons_of_mem c hd)
    rcases h c (List.mem_cons_self c rest) with ⟨q, hq, hqt⟩ | hinv
    · have hany : store.any (fun q => q.text == c.text) = true := by
        rw [List.any_eq_true]
        exact ⟨q, hq, by simpa using hqt⟩
      rw [if_pos hany]
      exact hrest
    · split
      · exact hrest
      · rw [if_neg (by tauto)]
        exact hrest

theorem mergeServer_append (xs ys store : List Quote) :
    Part002.mergeServerQuotes store (xs ++ ys) =
      Part002.mergeServerQuotes (Part002.mergeServerQuotes store xs) ys := by
  induction xs generalizing store with
  | nil => rw [List.nil_append, mergeServer_nil]
  | cons c rest ih =>
    rw [List.cons_append, mergeServer_cons, mergeServer_cons]
    split
    · exact ih store
    · split
      · exact ih (store ++ [c])
      · exact ih store

/-! ### Auxiliary facts about the string helpers and serialization -/

theorem jsToLower_eq_empty (s : String) : jsToLower s = "" ↔ s = "" := by
  rw [String.ext_iff, String.ext_iff]
  simp [jsToLower]

theorem jsonToQuote_quoteToJson (q : Quote) : jsonToQuote (quoteToJson q) = some q := rfl

/-! ### The claims -/

/-- Claim C1, counterexample: the sync merge skips a candidate whose text
matches an existing quote even though its category differs.  With the
store holding only the quote ("A", "x"), the fetched candidate
("A", "server") has no (text, category) match in the store, yet the merge
loop of `syncWithServer` leaves the store unchanged instead of appending
it. -/
theorem claimC1_counterexample :
    ScriptJs.mergeQuotes [⟨"A", "x"⟩] [⟨"A", "server"⟩] = [⟨"A", "x"⟩]
    ∧ ¬ ∃ q ∈ [Quote.mk "A" "x"], q.text = "A" ∧ q.category = "server" := by
  decide

/-- Claim C1 as amended: in every sync merge run the deduplication key is
the text alone.  Processing candidates left to right, a candidate is
skipped exactly when the store accumulated so far already holds a quote
with the same text — its category plays no role — and is appended
otherwise (in the `part_002` version, appended only when its text and
category are also nonempty). -/
theorem claimC1_merge_dedup :
    (∀ (store pre post : List Quote) (c : Quote),
      ScriptJs.mergeQuotes store (pre ++ c :: post) =
        if (ScriptJs.mergeQuotes store pre).any (fun q => q.text == c.text)
        then ScriptJs.mergeQuotes (ScriptJs.mergeQuotes store pre) post
        else ScriptJs.mergeQuotes (ScriptJs.mergeQuotes store pre ++ [c]) post)
    ∧ (∀ (store pre post : List Quote) (c : Quote),
      Part002.mergeServerQuotes store (pre ++ c :: post) =
        if (Part002.mergeServerQuotes store pre).any (fun q => q.text == c.text)
        then Part002.mergeServerQuotes (Part002.mergeServerQuotes store pre) post
        else if c.text ≠ "" ∧ c.category ≠ ""
        then Part002.mergeServerQuotes (Part002.mergeServerQuotes store pre ++ [c]) post
        else Part002.mergeServerQuotes (Part002.mergeServerQuotes store pre) post) := by
  constructor
  · intro store pre post c
    rw [mergeQuotes_append, mergeQuotes_cons]
  · intro store pre post c
    rw [mergeServer_append, mergeServer_cons]

/-- Claim C2, counterexample: the import of
`src/dom-manipulation/script.js` appends every element of the imported
array with no duplicate check.  Importing the one-element array
[{"text": "A", "category": "x"}] into a store that already holds the
record ("A", "x") appends it again, although a quote with the same
(text, category) key was already present. -/
theorem claimC2_counterexample :
    ([quoteToJson ⟨"A", "x"⟩].filterMap jsonToQuote = [⟨"A", "x"⟩])
    ∧ ((ScriptJs.importFromJsonFile ⟨[quoteToJson ⟨"A", "x"⟩], [quoteToJson ⟨"A", "x"⟩]⟩
          (some (Json.arr [quoteToJson ⟨"A", "x"⟩]))).1.quotes.filterMap jsonToQuote
        = [⟨"A", "x"⟩, ⟨"A", "x"⟩]) :=
  ⟨rfl, rfl⟩

/-- Claim C2 as amended, restricted to the `part_002` version of import:
a document that is not a JSON array (including an unparseable one) fails
with a format error; an element lacking the text or the category field is
silently skipped and the batch continues; an element carrying nonempty
string fields t and c is appended (as (t, lowercase c), counted) exactly
when no quote with the literally same (text, category) field values is
present in the store accumulated so far. -/
theorem claimC2_import :
    (∀ (store : List Quote) (j : Json), (∀ es, j ≠ Json.arr es) →
        Part002.importFromJsonFile store (some j) = none)
    ∧ (∀ store : List Quote, Part002.importFromJsonFile store none = none)
    ∧ (∀ (store : List Quote) (acc : Nat) (e : Json) (rest : List Json),
        e.getField "text" = none ∨ e.getField "category" = none →
        Part002.importElems store acc (e :: rest) = Part002.importElems store acc rest)
    ∧ (∀ (store : List Quote) (acc : Nat) (e : Json) (t c : String) (rest : List Json),
        e.getField "text" = some (Json.str t) →
        e.getField "category" = some (Json.str c) →
        t ≠ "" → c ≠ "" →
        Part002.importElems store acc (e :: rest) =
          if store.any (fun q => q.text == t && q.category == c)
          then Part002.importElems store acc rest
          else Part002.importElems (store ++ [⟨t, jsToLower c⟩]) (acc + 1) rest) := by
  refine ⟨?_, ?_, ?_, ?_⟩
  · intro store j h
    cases j with
    | null => rfl
    | str s => rfl
    | arr es => exact absurd rfl (h es)
    | obj fields => rfl
  · intro store
    rfl
  · intro store acc e rest h
    rcases h with h | h <;>
      simp [Part002.importElems, h, jsStrEq, jsTruthy]
  · intro store acc e t c rest ht hc htne hcne
    simp only [Part002.importElems, ht, hc]
    have hcond : (store.any fun q =>
        jsStrEq q.text (some (Json.str t)) && jsStrEq q.category (some (Json.str c)))
        = store.any (fun q => q.text == t && q.category == c) := rfl
    rw [hcond]
    split
    · rfl
    · have htr : (jsTruthy (some (Json.str t)) && jsTruthy (some (Json.str c))) = true := by
        simp [jsTruthy, htne, hcne]
      rw [if_pos htr]

/-- Claim C2, witness: the amended import characterization at concrete
inputs — a non-array document is rejected, an element without fields is
skipped, and a fresh valid element is appended and counted. -/
theorem claimC2_import_witness :
    (Part002.importFromJsonFile [] (some (Json.str "x")) = none)
    ∧ (Part002.importElems [] 0 [Json.obj []] = Part002.importElems [] 0 [])
    ∧ (Part002.importElems [] 0 [quoteToJson ⟨"B", "y"⟩] =
        if ([] : List Quote).any (fun q => q.text == "B" && q.category == "y")
        then Part002.importElems [] 0 []
        else Part002.importElems ([] ++ [⟨"B", jsToLower "y"⟩]) (0 + 1) []) :=
  ⟨claimC2_import.1 [] (Json.str "x") (fun es h => Json.noConfusion h),
   claimC2_import.2.2.1 [] 0 (Json.obj []) [] (Or.inl rfl),
   claimC2_import.2.2.2 [] 0 (quoteToJson ⟨"B", "y"⟩) "B" "y" [] rfl rfl
     (by decide) (by decide)⟩

/-- Claim C3, counterexample: `restoreFilter` in
`src/dom-manipulation/script.js` assigns the persisted value to the
filter dropdown with no existence check.  With a store whose only
category is "inspiration" and the persisted value "bogus" — which names
no category and is not "all" — the restored filter value is the empty
string (no option matches), not "all". -/
theorem claimC3_counterexample :
    ScriptJs.restoreFilter
        [⟨"The best way to predict the future is to invent it.", "inspiration"⟩]
        (some "bogus") = ""
    ∧ "bogus" ∉ ("all" :: ScriptJs.categoriesOf
        [⟨"The best way to predict the future is to invent it.", "inspiration"⟩]) := by
  decide

/-- Claim C3 as amended: in the `part_002` version, a persisted
selectedCategory that matches no option derived from the current store
(and is not "all") leaves the restored filter at "all"; in the
`dom-manipulation/script.js` version there is no existence check and the
restored filter value becomes the empty string instead. -/
theorem claimC3_restore :
    (∀ (store : List Quote) (s : String),
        s ∉ ("all" :: Part002.categoriesOf store) →
        Part002.restoreFilter store (some s) = "all")
    ∧ (∀ (store : List Quote) (s : String), s ≠ "" →
        s ∉ ("all" :: ScriptJs.categoriesOf store) →
        ScriptJs.restoreFilter store (some s) = "") := by
  constructor
  · intro store s hs
    by_cases hemp : s = ""
    · subst hemp
      simp [Part002.restoreFilter, jsOrAll]
    · simp [Part002.restoreFilter, jsOrAll, hemp, hs]
  · intro store s hemp hs
    simp [ScriptJs.restoreFilter, jsOrAll, hemp, hs]

/-- Claim C3, witness: restoring the saved value "motivation" over a
store whose only category is "inspiration" yields "all" in the
`part_002` version and the empty string in the `script.js` version. -/
theorem claimC3_restore_witness :
    (Part002.restoreFilter [⟨"q1", "inspiration"⟩] (some "motivation") = "all")
    ∧ (ScriptJs.restoreFilter [⟨"q1", "inspiration"⟩] (some "motivation") = "") :=
  ⟨claimC3_restore.1 [⟨"q1", "inspiration"⟩] "motivation" (by decide),
   claimC3_restore.2 [⟨"q1", "inspiration"⟩] "motivation" (by decide) (by decide)⟩

/-- Claim C4: both versions of the sync merge are idempotent — merging
the same candidate list twice leaves the store equal to the store
obtained by merging it once, for every store state and candidate list. -/
theorem claimC4_merge_idempotent :
    (∀ store cands : List Quote,
      ScriptJs.mergeQuotes (ScriptJs.mergeQuotes store cands) cands =
        ScriptJs.mergeQuotes store cands)
    ∧ (∀ store cands : List Quote,
      Part002.mergeServerQuotes (Part002.mergeServerQuotes store cands) cands =
        Part002.mergeServerQuotes store cands) := by
  constructor
  · intro store cands
    exact mergeQuotes_eq_self cands _ fun c hc => mergeQuotes_hasText cands store c hc
  · intro store cands
    exact mergeServer_eq_self cands _ fun c hc => mergeServer_hasText cands store c hc

/-- Claim C5: exporting a store to JSON and importing those bytes into an
empty store succeeds and yields a store whose set of (text, category)
records equals the original set — here the import preserves even the
exact record sequence. -/
theorem claimC5_export_import_roundtrip (s : List Quote) :
    ∃ out : StoreState Json,
      ScriptJs.importFromJsonFile ⟨[], []⟩
          (some (ScriptJs.exportQuotes (s.map quoteToJson))) = (out, true)
      ∧ ∀ q : Quote, q ∈ out.quotes.filterMap jsonToQuote ↔ q ∈ s := by
  refine ⟨⟨s.map quoteToJson, s.map quoteToJson⟩, rfl, ?_⟩
  intro q
  have hs : (s.map quoteToJson).filterMap jsonToQuote = s := by
    rw [List.filterMap_map]
    have hcomp : jsonToQuote ∘ quoteToJson = some := funext fun q => jsonToQuote_quoteToJson q
    rw [hcomp, List.filterMap_some]
  rw [hs]

/-- Claim C6: starting from a store holding only the seed quote
("The best way to predict the future is to invent it.", "inspiration"),
adding ("Test quote", "Test") and filtering by "test" yields exactly one
entry, with text "Test quote" and category "test" (lowercased by add). -/
theorem claimC6_add_filter_scenario :
    ScriptJs.filterQuotes
      (ScriptJs.addQuote
        ⟨[⟨"The best way to predict the future is to invent it.", "inspiration"⟩],
         [⟨"The best way to predict the future is to invent it.", "inspiration"⟩]⟩
        "Test quote" "Test").1.quotes
      "test"
    = [⟨"Test quote", "test"⟩] := by
  decide

/-- Claim C7: when the text or the category is empty after trimming, add
reports a validation error and leaves the in-memory and persisted store
unchanged; when both are nonempty after trimming, add appends exactly one
quote (trimmed text, trimmed lowercased category) to both. -/
theorem claimC7_add (st : StoreState Quote) (textIn catIn : String) :
    ((jsTrim textIn = "" ∨ jsTrim catIn = "") →
      ScriptJs.addQuote st textIn catIn = (st, false))
    ∧ (jsTrim textIn ≠ "" → jsTrim catIn ≠ "" →
      ScriptJs.addQuote st textIn catIn =
        (⟨st.quotes ++ [⟨jsTrim textIn, jsToLower (jsTrim catIn)⟩],
          st.quotes ++ [⟨jsTrim textIn, jsToLower (jsTrim catIn)⟩]⟩, true)) := by
  constructor
  · intro h
    unfold ScriptJs.addQuote
    rw [if_pos]
    rcases h with h | h
    · exact Or.inl h
    · exact Or.inr ((jsToLower_eq_empty _).mpr h)
  · intro ht hc
    unfold ScriptJs.addQuote
    rw [if_neg]
    push_neg
    exact ⟨ht, fun h => hc ((jsToLower_eq_empty _).mp h)⟩

/-- Claim C7, witness: a blank text is rejected without touching the
state, and the input (" Hello ", " Motivation ") is appended once as
("Hello", "motivation"). -/
theorem claimC7_add_witness :
    (ScriptJs.addQuote ⟨[], []⟩ "   " "x" = (⟨[], []⟩, false))
    ∧ (ScriptJs.addQuote ⟨[], []⟩ " Hello " " Motivation " =
        (⟨[⟨"Hello", "motivation"⟩], [⟨"Hello", "motivation"⟩]⟩, true)) := by
  constructor
  · exact (claimC7_add ⟨[], []⟩ "   " "x").1 (Or.inl (by decide))
  · rw [(claimC7_add ⟨[], []⟩ " Hello " " Motivation ").2 (by decide) (by decide)]
    decide

/-- Claim C8: for every random draw in [0, 1), the random-mode display
over the filtered view shows the no-quotes message when the view is
empty and performs no selection; when the view is nonempty the selected
index is in range, so the access succeeds and the displayed quote is an
element of the view. -/
theorem claimC8_random (store : List Quote) (sel : String) (rand : ℚ)
    (h0 : 0 ≤ rand) (h1 : rand < 1) :
    (ScriptJs.filterQuotes store sel = [] →
      ScriptJs.displayRandomQuote store sel rand = ScriptJs.DisplayOutcome.noQuotes)
    ∧ (ScriptJs.filterQuotes store sel ≠ [] →
      ∃ q, ScriptJs.displayRandomQuote store sel rand = ScriptJs.DisplayOutcome.shown (some q)
        ∧ q ∈ ScriptJs.filterQuotes store sel) := by
  have hview : (if sel = "all" then store else store.filter fun q => q.category == sel)
      = ScriptJs.filterQuotes store sel := rfl
  constructor
  · intro hemp
    unfold ScriptJs.displayRandomQuote
    rw [hview, hemp]
    simp
  · intro hne
    unfold ScriptJs.displayRandomQuote
    rw [hview]
    have hlen : 0 < (ScriptJs.filterQuotes store sel).length := List.length_pos.mpr hne
    rw [if_neg (Nat.pos_iff_ne_zero.mp hlen)]
    set v := ScriptJs.filterQuotes store sel with hv
    set i := (Rat.floor (rand * (v.length : ℚ))).toNat with hi
    have hfl : Rat.floor (rand * (v.length : ℚ)) = ⌊rand * (v.length : ℚ)⌋ := rfl
    have hnonneg : (0:ℚ) ≤ rand * (v.length : ℚ) := mul_nonneg h0 (by positivity)
    have hlt : rand * (v.length : ℚ) < (v.length : ℚ) := by
      calc rand * (v.length : ℚ) < 1 * (v.length : ℚ) := by
            apply mul_lt_mul_of_pos_right h1
            exact_mod_cast hlen
        _ = (v.length : ℚ) := one_mul _
    have hfloorlt : ⌊rand * (v.length : ℚ)⌋ < (v.length : ℤ) := by
      rw [Int.floor_lt]
      exact_mod_cast hlt
    have hfloornn : 0 ≤ ⌊rand * (v.length : ℚ)⌋ := Int.floor_nonneg.mpr hnonneg
    have hilt : i < v.length := by
      rw [hi, hfl]
      omega
    rw [List.getElem?_eq_getElem hilt]
    exact ⟨v[i], rfl, List.getElem_mem hilt⟩

/-- Claim C8, witness: with the draw 0 over a one-quote store and the
"all" selection, the display shows a member of the view. -/
theorem claimC8_random_witness :
    (0:ℚ) ≤ 0 ∧ (0:ℚ) < 1 ∧
    ∃ q, ScriptJs.displayRandomQuote [⟨"a", "inspiration"⟩] "all" 0 =
        ScriptJs.DisplayOutcome.shown (some q)
      ∧ q ∈ ScriptJs.filterQuotes [⟨"a", "inspiration"⟩] "all" :=
  ⟨le_refl 0, zero_lt_one,
   (claimC8_random [⟨"a", "inspiration"⟩] "all" 0 (le_refl 0) zero_lt_one).2 (by decide)⟩

/-- Claim C9: starting from a reconciled state (in-memory sequence equal
to the persisted copy), every mutating operation of
`src/dom-manipulation/script.js` — add, sync merge, import — leaves the
persisted copy under the "quotes" key equal to the in-memory sequence,
and the sync run writes the persisted copy exactly when its added count
is positive. -/
theorem claimC9_persistence :
    (∀ st : StoreState Quote, st.quotes = st.storedQuotes →
      ∀ textIn catIn : String, ((ScriptJs.addQuote st textIn catIn).1.quotes
          = (ScriptJs.addQuote st textIn catIn).1.storedQuotes))
    ∧ (∀ st : StoreState Quote, st.quotes = st.storedQuotes →
      ∀ posts : List ServerPost, ((ScriptJs.syncWithServer st posts).1.quotes
            = (ScriptJs.syncWithServer st posts).1.storedQuotes)
        ∧ ((ScriptJs.syncWithServer st posts).2 = true ↔
            0 < (ScriptJs.mergeCount st.storedQuotes (ScriptJs.formattedQuotes posts)).2))
    ∧ (∀ st : StoreState Json, st.quotes = st.storedQuotes →
      ∀ doc : Option Json, ((ScriptJs.importFromJsonFile st doc).1.quotes
          = (ScriptJs.importFromJsonFile st doc).1.storedQuotes)) := by
  refine ⟨?_, ?_, ?_⟩
  · intro st h textIn catIn
    unfold ScriptJs.addQuote
    split
    · exact h
    · rfl
  · intro st h posts
    unfold ScriptJs.syncWithServer
    constructor
    · split
      · rfl
      · exact h
    · split <;> rename_i hcond <;> simp [hcond]
  · intro st h doc
    unfold ScriptJs.importFromJsonFile
    split
    · rfl
    · exact h

/-- Claim C9, witness: the reconciliation holds after a concrete add, a
concrete sync run and a concrete import starting from the empty
reconciled state. -/
theorem claimC9_persistence_witness :
    ((ScriptJs.addQuote ⟨[], []⟩ "t" "c").1.quotes
      = (ScriptJs.addQuote ⟨[], []⟩ "t" "c").1.storedQuotes)
    ∧ ((ScriptJs.syncWithServer ⟨[], []⟩ [⟨"hello"⟩]).1.quotes
      = (ScriptJs.syncWithServer ⟨[], []⟩ [⟨"hello"⟩]).1.storedQuotes)
    ∧ ((ScriptJs.importFromJsonFile ⟨[], []⟩ (some (Json.arr []))).1.quotes
      = (ScriptJs.importFromJsonFile ⟨[], []⟩ (some (Json.arr []))).1.storedQuotes) :=
  ⟨claimC9_persistence.1 ⟨[], []⟩ rfl "t" "c",
   (claimC9_persistence.2.1 ⟨[], []⟩ rfl [⟨"hello"⟩]).1,
   claimC9_persistence.2.2 ⟨[], []⟩ rfl (some (Json.arr []))⟩

/-- Claim C10: in both versions, a single sync run appends at most 5
quotes — only the first 5 fetched remote records are mapped — and every
quote it appends has category exactly "server". -/
theorem claimC10_sync_bound (store : List Quote) (posts : List ServerPost) :
    (∃ added, ScriptJs.mergeQuotes store (ScriptJs.formattedQuotes posts) = store ++ added
        ∧ added.length ≤ 5 ∧ ∀ q ∈ added, q.category = "server")
    ∧ (∃ added, Part002.mergeServerQuotes store (Part002.fetchedQuotes posts) = store ++ added
        ∧ added.length ≤ 5 ∧ ∀ q ∈ added, q.category = "server") := by
  have hlen : (ScriptJs.formattedQuotes posts).length ≤ 5 := by
    simp [ScriptJs.formattedQuotes, List.length_take]
  have hcat : ∀ q ∈ ScriptJs.formattedQuotes posts, q.category = "server" := by
    intro q hq
    simp only [ScriptJs.formattedQuotes, List.mem_map] at hq
    obtain ⟨p, _, hp⟩ := hq
    rw [← hp]
  constructor
  · obtain ⟨added, h1, h2⟩ := mergeQuotes_suffix (ScriptJs.formattedQuotes posts) store
    exact ⟨added, h1, le_trans h2.length_le hlen, fun q hq => hcat q (h2.subset hq)⟩
  · obtain ⟨added, h1, h2⟩ := mergeServer_suffix (Part002.fetchedQuotes posts) store
    exact ⟨added, h1, le_trans h2.length_le hlen, fun q hq => hcat q (h2.subset hq)⟩

end QuoteApp
